import Mathlib

/-!
# i3status bar configuration: formatting helpers

A shallow embedding of the pure helpers of `i3status.go` (`truncate`, `hms`,
`formatMediaTime`, `threshold`, `mediaFormatFunc`) and of the wlan and battery
formatter closures registered in `main`, followed by the properties stated for
them.

Modelling conventions.

* A Go `string` holding text is the list of its Unicode code points
  (`List Char`); `[]rune(s)` is that list, `len(s)` is the number of bytes of
  its UTF-8 encoding (`len`).
* Go `int` is the 64-bit two's-complement integer: values are `Int`, and the
  results of negation, addition and subtraction are reduced with `wrapInt`.
* A run-time panic is `Except.error`; a `nil` `bar.Output` is `none`.
* `float64` values are the rationals they denote, every operation rounding
  its exact result to binary64 (`f64Round`, round to nearest, ties to even).
  All values that occur are below `2 ^ 64`, so overflow to infinity is not
  represented.
-/

namespace I3Status

/-! ## Machine integers and run-time errors -/

/-- Two's-complement reduction of an integer to the range of Go `int`
(64 bits). -/
def wrapInt (x : Int) : Int := (x + 2 ^ 63) % 2 ^ 64 - 2 ^ 63

/-- The run-time panics that the modelled code can raise. -/
inductive RuntimeError where
  | sliceBoundsOutOfRange
  deriving DecidableEq, Repr

deriving instance DecidableEq for Except

/-- Outcome of a Go call that may panic. -/
abbrev Result (α : Type) := Except RuntimeError α

/-! ## Strings -/

/-- Number of bytes of the UTF-8 encoding of one code point. -/
def runeLen (c : Char) : Nat :=
  if c.val.toNat < 0x80 then 1
  else if c.val.toNat < 0x800 then 2
  else if c.val.toNat < 0x10000 then 3
  else 4

/-- Go `len(s)` for a string: the number of bytes of its UTF-8 encoding. -/
def len (s : List Char) : Int := ((s.map runeLen).sum : Nat)

/-- The ellipsis marker `"⋯"` (U+22EF). -/
def ellipsis : Char := '⋯'

/-- Go slice expression `rs[lo:]`: panics unless `0 ≤ lo ≤ len(rs)`. -/
def sliceFrom (rs : List Char) (lo : Int) : Result (List Char) :=
  if 0 ≤ lo ∧ lo ≤ rs.length then .ok (rs.drop lo.toNat)
  else .error .sliceBoundsOutOfRange

/-- Go slice expression `rs[:hi]`: panics unless `0 ≤ hi` and `hi` is within
the slice.  The bound is the length: in `truncate` a non-negative `hi` is
always below the length, so the capacity of the converted slice never
matters. -/
def sliceTo (rs : List Char) (hi : Int) : Result (List Char) :=
  if 0 ≤ hi ∧ hi ≤ rs.length then .ok (rs.take hi.toNat)
  else .error .sliceBoundsOutOfRange

/-- The function `truncate(in string, l int) string` (lines 303-317). -/
def truncate (s : List Char) (l : Int) : Result (List Char) :=
  let fromStart := decide (l < 0)
  let l := if l < 0 then wrapInt (-l) else l
  let inLen : Int := s.length
  if inLen ≤ l then .ok s
  else if fromStart then
    (sliceFrom s (wrapInt (wrapInt (inLen - l) + 1))).map (fun t => ellipsis :: t)
  else
    (sliceTo s (wrapInt (l - 1))).map (fun t => t ++ [ellipsis])

/-- The last `k` code points of a text. -/
def lastN (k : Nat) (s : List Char) : List Char := (s.reverse.take k).reverse

/-! ## binary64 arithmetic -/

/-- Position of the highest set bit of `n` (`0` for `n < 2`), by halving at
most `fuel` times. -/
def log2Floor : Nat → Nat → Nat
  | 0, _ => 0
  | fuel + 1, n => if n < 2 then 0 else log2Floor fuel (n / 2) + 1

/-- The binade of a positive rational `x`: the integer `e` with
`2 ^ e ≤ x < 2 ^ (e + 1)`. -/
def binade (x : ℚ) : Int :=
  let p := x.num.natAbs
  let q := x.den
  let e0 : Int := (log2Floor p p : Int) - (log2Floor q q : Int)
  if (2 : ℚ) ^ e0 ≤ x then e0 else e0 - 1

/-- Rounding of a rational to the nearest integer, ties to the even one. -/
def roundHalfEven (x : ℚ) : Int :=
  let f := ⌊x⌋
  let r := x - f
  if r < 1 / 2 then f
  else if 1 / 2 < r then f + 1
  else if f % 2 = 0 then f else f + 1

/-- Exponent of the unit in the last place of the binary64 numbers of the
binade of a positive `x`: 53 significant bits, subnormals below `2 ^ (-1022)`. -/
def ulpExp (x : ℚ) : Int := max (binade x - 52) (-1074)

/-- Rounding of a positive rational to binary64. -/
def f64RoundPos (x : ℚ) : ℚ :=
  (roundHalfEven (x / (2 : ℚ) ^ ulpExp x) : ℚ) * (2 : ℚ) ^ ulpExp x

/-- Rounding of a rational to binary64: round to nearest, ties to even. -/
def f64Round (x : ℚ) : ℚ :=
  if x = 0 then 0
  else if 0 < x then f64RoundPos x
  else - f64RoundPos (-x)

/-- The finite binary64 numbers: `m * 2 ^ k` with `|m| < 2 ^ 53` and
`-1074 ≤ k` (no upper bound on `k`: overflow is not represented). -/
def IsF64 (a : ℚ) : Prop :=
  ∃ m k : Int, |m| < 2 ^ 53 ∧ -1074 ≤ k ∧ a = (m : ℚ) * (2 : ℚ) ^ k

/-- Go conversion `int(f)` of a `float64`: the fractional part is discarded
(truncation towards zero). -/
def intOfF64 (x : ℚ) : Int := if 0 ≤ x then ⌊x⌋ else ⌈x⌉

/-! ## `time.Duration` -/

/-- Nanoseconds in a second (`time.Second`). -/
def Second : Int := 1000000000

/-- Nanoseconds in a minute (`time.Minute`). -/
def Minute : Int := 60 * Second

/-- Nanoseconds in an hour (`time.Hour`). -/
def Hour : Int := 60 * Minute

/-- The method `Duration.Seconds` of package `time`:
`sec := d / Second; nsec := d % Second; float64(sec) + float64(nsec)/1e9`. -/
def durationSeconds (d : Int) : ℚ :=
  f64Round (f64Round (d.tdiv Second) + f64Round (f64Round (d.tmod Second) / 1000000000))

/-- The method `Duration.Minutes` of package `time`:
`min := d / Minute; nsec := d % Minute; float64(min) + float64(nsec)/(60*1e9)`. -/
def durationMinutes (d : Int) : ℚ :=
  f64Round (f64Round (d.tdiv Minute) + f64Round (f64Round (d.tmod Minute) / 60000000000))

/-- The method `Duration.Hours` of package `time`:
`hour := d / Hour; nsec := d % Hour; float64(hour) + float64(nsec)/(60*60*1e9)`. -/
def durationHours (d : Int) : ℚ :=
  f64Round (f64Round (d.tdiv Hour) + f64Round (f64Round (d.tmod Hour) / 3600000000000))

/-- The function `hms(d time.Duration) (h int, m int, s int)` (lines 319-324). -/
def hms (d : Int) : Int × Int × Int :=
  (intOfF64 (durationHours d),
   (intOfF64 (durationMinutes d)).tmod 60,
   (intOfF64 (durationSeconds d)).tmod 60)

/-! ## `fmt.Sprintf` verbs -/

/-- Decimal digits of a natural number. -/
def digits (n : Nat) : List Char := Nat.toDigits 10 n

/-- The verb `%d` applied to an `int`. -/
def fmtD (n : Int) : List Char :=
  if n < 0 then '-' :: digits n.natAbs else digits n.toNat

/-- Left padding of a digit string with zeros up to `w` characters. -/
def padZeros (w : Nat) (ds : List Char) : List Char :=
  List.replicate (w - ds.length) '0' ++ ds

/-- The verb `%02d` applied to an `int`: zero padding to width 2, the sign
taking one of the two columns. -/
def fmt02D (n : Int) : List Char :=
  if n < 0 then '-' :: padZeros 1 (digits n.natAbs) else padZeros 2 (digits n.toNat)

/-- The function `formatMediaTime(d time.Duration) string` (lines 262-268). -/
def formatMediaTime (d : Int) : List Char :=
  match hms d with
  | (h, m, s) =>
    if h > 0 then fmtD h ++ ":".toList ++ fmt02D m ++ ":".toList ++ fmt02D s
    else fmtD m ++ ":".toList ++ fmt02D s

/-- The two digit characters of a number below 100. -/
def twoDigits (n : Nat) : List Char := [Nat.digitChar (n / 10), Nat.digitChar (n % 10)]

/-! ## Bar segments and colours -/

/-- The part of a `bar.Segment` that the formatters touch: its text, its
colour and its urgency flag, the latter two unset on a fresh segment. -/
structure Segment where
  text : List Char
  color : Option String := none
  urgent : Option Bool := none
  deriving DecidableEq, Repr

/-- The builder `(*Segment).Color`: sets the colour, nothing else. -/
def Segment.Color (s : Segment) (c : Option String) : Segment := { s with color := c }

/-- The builder `(*Segment).Urgent`: sets the urgency flag, nothing else. -/
def Segment.Urgent (s : Segment) (u : Bool) : Segment := { s with urgent := some u }

/-- The constructor `outputs.Text`: a fresh segment. -/
def outputsText (t : List Char) : Segment := { text := t }

/-- The lookup `colors.Scheme` after `colors.LoadFromMap` of `main`
(lines 50-54); an unknown name has no colour. -/
def Scheme (name : String) : Option String :=
  if name = "good" then some "#0f0"
  else if name = "bad" then some "#f00"
  else if name = "degraded" then some "#ff0"
  else none

/-- The slice `colorKeys` of `threshold`, with the indices of `range`. -/
def colorKeys : List (Nat × String) := [(0, "bad"), (1, "degraded"), (2, "good")]

/-- The `for i, c := range colorKeys` loop of `threshold`, over the keys that
remain. -/
def thresholdLoop (out : Segment) (color : List Bool) : List (Nat × String) → Segment
  | [] => out
  | (i, c) :: rest =>
    if color.length > i && color.getD i false then out.Color (Scheme c)
    else thresholdLoop out color rest

/-- The function `threshold(out, urgent, color ...bool)` (lines 249-260). -/
def threshold (out : Segment) (urgent : Bool) (color : List Bool) : Segment :=
  if urgent then out.Urgent true
  else thresholdLoop out color colorKeys

/-! ## The wlan formatter -/

/-- What the wlan formatter reads of a `wlan.Info`: the results of its
`Connected`, `Connecting` and `Enabled` methods, the SSID and the rendered
addresses. -/
structure WlanInfo where
  connected : Bool
  connecting : Bool
  enabled : Bool
  SSID : List Char
  IPs : List (List Char)
  deriving DecidableEq, Repr

/-- The wlan formatter closure of `main` (lines 85-100). -/
def wlanFormat (w : WlanInfo) : Option Segment :=
  if w.connected then
    let out := "W: (".toList ++ w.SSID ++ ")".toList
    let out := match w.IPs with
      | ip :: _ => out ++ " ".toList ++ ip
      | [] => out
    some ((outputsText out).Color (Scheme "good"))
  else if w.connecting then
    some ((outputsText "W: connecting...".toList).Color (Scheme "degraded"))
  else if w.enabled then
    some ((outputsText "W: down".toList).Color (Scheme "bad"))
  else none

/-! ## The battery formatter -/

/-- The values of `battery.Status`. -/
inductive BatteryStatus where
  | Disconnected | Charging | Discharging | Full | NotCharging | Unknown
  | other (name : String)
  deriving DecidableEq, Repr

/-- What the battery formatter reads of a `battery.Info`: its status and the
results of `RemainingPct` and `RemainingTime` (nanoseconds). -/
structure BatteryInfo where
  Status : BatteryStatus
  remainingPct : Int
  remainingTime : Int
  deriving DecidableEq, Repr

/-- The method `battery.Info.Discharging`: the status is `Discharging`. -/
def BatteryInfo.Discharging (b : BatteryInfo) : Bool := b.Status == .Discharging

/-- The map `statusName` of `main` (lines 155-160); a missing key reads as
the empty string. -/
def statusName : BatteryStatus → List Char
  | .Charging => "CHR".toList
  | .Discharging => "BAT".toList
  | .NotCharging => "NOT".toList
  | .Unknown => "UNK".toList
  | _ => []

/-- The battery formatter closure of `main` (lines 163-180); `durString` is
`time.Duration.String`, the rendering of the `%s` verb. -/
def batteryFormat (durString : Int → List Char) (b : BatteryInfo) : Option Segment :=
  if b.Status = .Disconnected then none
  else if b.Status = .Full then some (outputsText "FULL".toList)
  else
    let out := outputsText
      (statusName b.Status ++ " ".toList ++ fmtD b.remainingPct ++ "% ".toList
        ++ durString b.remainingTime)
    if b.Discharging then
      if b.remainingPct < 20 ∨ b.remainingTime < 30 * Minute then
        some (out.Color (Scheme "bad"))
      else some out
    else some out

/-! ## The media formatter -/

/-- The values of `media.PlaybackStatus`. -/
inductive PlaybackStatus where
  | Disconnected | Playing | Paused | Stopped
  deriving DecidableEq, Repr

/-- What the media formatter reads of a `media.Info`; `position` is the
result of its `Position` method. -/
structure MediaInfo where
  PlaybackStatus : PlaybackStatus
  Artist : List Char
  Title : List Char
  Length : Int
  position : Int
  deriving DecidableEq, Repr

/-- The text fragments appended to the icon by `makeMediaIconAndPosition`
(lines 270-281). -/
def makeMediaIconAndPosition (m : MediaInfo) : List (List Char) :=
  (if m.PlaybackStatus = .Playing then [formatMediaTime m.position ++ "/".toList] else [])
  ++ (if m.PlaybackStatus = .Paused ∨ m.PlaybackStatus = .Playing
      then [formatMediaTime m.Length] else [])

/-- The output group built by `mediaFormatFunc`: the icon fragments, whether
they are re-rendered every second, and the displayed title and artist. -/
structure MediaOutput where
  iconAndPosition : List (List Char)
  repeating : Bool
  title : List Char
  artist : List Char
  deriving DecidableEq, Repr

/-- The text of the second segment, `outputs.Pango(title, " - ", artist)`. -/
def MediaOutput.text (o : MediaOutput) : List Char := o.title ++ " - ".toList ++ o.artist

/-- The function `mediaFormatFunc(m media.Info) bar.Output` (lines 283-301). -/
def mediaFormatFunc (m : MediaInfo) : Result (Option MediaOutput) :=
  if m.PlaybackStatus = .Stopped ∨ m.PlaybackStatus = .Disconnected then .ok none
  else
    match truncate m.Artist 14 with
    | .error e => .error e
    | .ok artist =>
      match truncate m.Title (wrapInt (50 - len artist)) with
      | .error e => .error e
      | .ok title =>
        match (if len title < 35 then truncate m.Artist (wrapInt (35 - len title))
               else .ok artist) with
        | .error e => .error e
        | .ok artist =>
          .ok (some
            { iconAndPosition := makeMediaIconAndPosition m
              repeating := decide (m.PlaybackStatus = .Playing)
              title := title
              artist := artist })

/-- The artist as the first pass of `mediaFormatFunc` displays it. -/
def firstPassArtist (m : MediaInfo) : Result (List Char) := truncate m.Artist 14

/-- Number of code points of the original text that a truncated rendering
keeps: all of them if it is the text itself, all but the ellipsis otherwise. -/
def keptRunes (original shown : List Char) : Nat :=
  if shown = original then original.length else shown.length - 1

set_option maxRecDepth 4000

/-! ## Machine integers -/

theorem wrapInt_of_range (x : Int) (h1 : -2 ^ 63 ≤ x) (h2 : x < 2 ^ 63) : wrapInt x = x := by
  unfold wrapInt
  norm_num at h1 h2 ⊢
  omega

/-! ## `truncate` -/

theorem truncate_nonneg (s : List Char) (l : Int) (h0 : 0 ≤ l) (h2 : l < 2 ^ 63) :
    truncate s l =
      if (s.length : Int) ≤ l then .ok s
      else if 1 ≤ l then .ok (s.take (l - 1).toNat ++ [ellipsis])
      else .error .sliceBoundsOutOfRange := by
  have hneg : ¬ l < 0 := by omega
  have hw : wrapInt (l - 1) = l - 1 := by
    apply wrapInt_of_range <;> norm_num at h2 ⊢ <;> omega
  unfold truncate
  simp only [hneg, if_false, decide_False, hw, sliceTo]
  by_cases hle : (s.length : Int) ≤ l
  · simp [hle]
  · by_cases h1 : 1 ≤ l
    · have hb : 0 ≤ l - 1 ∧ l - 1 ≤ (s.length : Int) := by omega
      simp [hle, h1, hb, Except.map]
    · have hb : ¬ (0 ≤ l - 1 ∧ l - 1 ≤ (s.length : Int)) := by omega
      simp [hle, h1, hb, Except.map]

theorem truncate_neg (s : List Char) (l : Int) (h1 : -2 ^ 63 < l) (h0 : l < 0)
    (hs : (s.length : Int) < 2 ^ 63) :
    truncate s l =
      if (s.length : Int) ≤ -l then .ok s
      else .ok (ellipsis :: s.drop ((s.length : Int) + l + 1).toNat) := by
  have hw : wrapInt (-l) = -l := by
    apply wrapInt_of_range <;> norm_num at h1 ⊢ <;> omega
  unfold truncate
  simp only [h0, if_true, decide_True, hw]
  by_cases hle : (s.length : Int) ≤ -l
  · simp [hle]
  · have hw1 : wrapInt ((s.length : Int) + l) = (s.length : Int) + l := by
      apply wrapInt_of_range <;> norm_num at h1 hs ⊢ <;> omega
    have hw2 : wrapInt ((s.length : Int) + l + 1) = (s.length : Int) + l + 1 := by
      apply wrapInt_of_range <;> norm_num at h1 hs ⊢ <;> omega
    have hb : 0 ≤ (s.length : Int) + l + 1 ∧ (s.length : Int) + l + 1 ≤ (s.length : Int) := by
      omega
    simp [hle, hw1, hw2, sliceFrom, hb, Except.map]

theorem lastN_eq_drop (k : Nat) (s : List Char) : lastN k s = s.drop (s.length - k) := by
  unfold lastN
  rw [List.take_reverse, List.reverse_reverse]

/-- C1 (as stated, refuted): the limit `-2 ^ 63` is non-zero and the empty text
has no more code points than its absolute value, yet `truncate` does not
return the text: negating the limit overflows and the slice index is out of
range. -/
theorem truncate_minInt_panics :
    (-9223372036854775808 : Int) ≠ 0 ∧
    (([] : List Char).length : Int) ≤ |(-9223372036854775808 : Int)| ∧
    truncate [] (-9223372036854775808) = .error .sliceBoundsOutOfRange := by
  refine ⟨by decide, by decide, by decide⟩

/-- C1 (amended): for every text `s` and every non-zero limit `l` other than
the least `int`, with `n` the number of code points of `s`: if `n ≤ |l|` the
text is returned unchanged; if `n > |l|` and `l > 0` the result is the first
`l - 1` code points followed by one ellipsis; if `n > |l|` and `l < 0` it is
one ellipsis followed by the last `|l| - 1` code points; in both over-length
cases the result has exactly `|l|` code points.  In particular
`truncate("abcdefgh", 5) = "abcd⋯"` and `truncate("abcdefgh", -5) = "⋯efgh"`. -/
theorem truncate_spec (s : List Char) (l : Int) (hl : l ≠ 0)
    (hmin : -2 ^ 63 < l) (hmax : l < 2 ^ 63) (hs : (s.length : Int) < 2 ^ 63) :
    ((s.length : Int) ≤ |l| → truncate s l = .ok s) ∧
    (|l| < (s.length : Int) → 0 < l →
      truncate s l = .ok (s.take (l.toNat - 1) ++ [ellipsis])) ∧
    (|l| < (s.length : Int) → l < 0 →
      truncate s l = .ok (ellipsis :: lastN (l.natAbs - 1) s)) ∧
    (|l| < (s.length : Int) → ∃ r, truncate s l = .ok r ∧ (r.length : Int) = |l|) ∧
    truncate "abcdefgh".toList 5 = .ok "abcd⋯".toList ∧
    truncate "abcdefgh".toList (-5) = .ok "⋯efgh".toList := by
  have hpos : 0 < l → truncate s l =
      if (s.length : Int) ≤ |l| then .ok s
      else .ok (s.take (l.toNat - 1) ++ [ellipsis]) := by
    intro h
    rw [truncate_nonneg s l h.le hmax, abs_of_pos h]
    have h1 : 1 ≤ l := h
    have e : (l - 1).toNat = l.toNat - 1 := by omega
    simp [h1, e]
  have hneg : l < 0 → truncate s l =
      if (s.length : Int) ≤ |l| then .ok s
      else .ok (ellipsis :: lastN (l.natAbs - 1) s) := by
    intro h
    rw [truncate_neg s l hmin h hs, abs_of_neg h, lastN_eq_drop]
    by_cases hle : (s.length : Int) ≤ -l
    · simp [hle]
    · have e : ((s.length : Int) + l + 1).toNat = s.length - (l.natAbs - 1) := by omega
      simp [hle, e]
  refine ⟨?_, ?_, ?_, ?_, by decide, by decide⟩
  · intro hle
    rcases lt_or_gt_of_ne hl with h | h
    · rw [hneg h, if_pos hle]
    · rw [hpos h, if_pos hle]
  · intro hlt h
    rw [hpos h, if_neg (not_le.mpr hlt)]
  · intro hlt h
    rw [hneg h, if_neg (not_le.mpr hlt)]
  · intro hlt
    rcases lt_or_gt_of_ne hl with h | h
    · refine ⟨_, by rw [hneg h, if_neg (not_le.mpr hlt)], ?_⟩
      rw [lastN_eq_drop, abs_of_neg h] at *
      simp only [List.length_cons, List.length_drop]
      omega
    · refine ⟨_, by rw [hpos h, if_neg (not_le.mpr hlt)], ?_⟩
      rw [abs_of_pos h] at *
      simp only [List.length_append, List.length_take, List.length_singleton]
      omega

/-- C1 (amended), at the over-length text `"abcdefgh"` with limit `-5`. -/
theorem truncate_spec_witness :
    truncate "abcdefgh".toList (-5)
      = .ok (ellipsis :: lastN ((-5 : Int).natAbs - 1) "abcdefgh".toList) ∧
    ∃ r, truncate "abcdefgh".toList (-5) = .ok r ∧ (r.length : Int) = |(-5 : Int)| :=
  ⟨(truncate_spec "abcdefgh".toList (-5) (by decide) (by decide) (by decide)
      (by decide)).2.2.1 (by decide) (by decide),
   (truncate_spec "abcdefgh".toList (-5) (by decide) (by decide) (by decide)
      (by decide)).2.2.2.1 (by decide)⟩

/-- C2: for a non-empty text, `truncate(s, 0)` panics: the text is longer than
the limit and the slice `[:l-1]` has the negative bound `-1`. -/
theorem truncate_zero_panics (s : List Char) (h : s ≠ []) :
    truncate s 0 = .error .sliceBoundsOutOfRange := by
  have hlen : ¬ ((s.length : Int) ≤ 0) := by
    have : 0 < s.length := List.length_pos.mpr h
    omega
  have hw : wrapInt (-1) = -1 := by decide
  unfold truncate
  simp [hlen, hw, sliceTo, Except.map]

/-- C2, at the one-letter text `"a"`. -/
theorem truncate_zero_panics_witness :
    "a".toList ≠ [] ∧ truncate "a".toList 0 = .error .sliceBoundsOutOfRange :=
  ⟨by decide, truncate_zero_panics "a".toList (by decide)⟩

/-! ## `threshold` -/

/-- C5: `threshold` applies exactly the first true condition in the order
urgent, bad, degraded, good.  With `urgent` the segment is marked urgent and
its colour is left as it was; otherwise the colour of the lowest index below 3
whose predicate is true is applied (0 bad, 1 degraded, 2 good); with `urgent`
false and none of the first three predicates true, or none supplied, the
segment is returned unchanged. -/
theorem threshold_spec (out : Segment) (urgent : Bool) (color : List Bool) :
    (urgent = true →
      threshold out urgent color = out.Urgent true ∧
      (threshold out urgent color).color = out.color ∧
      (threshold out urgent color).urgent = some true) ∧
    (urgent = false → color[0]? = some true →
      threshold out urgent color = out.Color (Scheme "bad")) ∧
    (urgent = false → color[0]? ≠ some true → color[1]? = some true →
      threshold out urgent color = out.Color (Scheme "degraded")) ∧
    (urgent = false → color[0]? ≠ some true → color[1]? ≠ some true →
      color[2]? = some true →
      threshold out urgent color = out.Color (Scheme "good")) ∧
    (urgent = false → (∀ i, i < 3 → color[i]? ≠ some true) →
      threshold out urgent color = out) ∧
    (urgent = false → color = [] → threshold out urgent color = out) := by
  refine ⟨?_, ?_, ?_, ?_, ?_, ?_⟩
  · intro hu
    subst hu
    simp [threshold, Segment.Urgent]
  · intro hu h0
    subst hu
    rcases color with _ | ⟨a, rest⟩
    · simp at h0
    · simp at h0
      subst h0
      simp [threshold, thresholdLoop, colorKeys]
  · intro hu h0 h1
    subst hu
    rcases color with _ | ⟨a, _ | ⟨b, rest⟩⟩
    · simp at h1
    · simp at h1
    · simp at h0 h1
      subst h0 h1
      simp [threshold, thresholdLoop, colorKeys]
  · intro hu h0 h1 h2
    subst hu
    rcases color with _ | ⟨a, _ | ⟨b, _ | ⟨c, rest⟩⟩⟩
    · simp at h2
    · simp at h2
    · simp at h2
    · simp at h0 h1 h2
      subst h0 h1 h2
      simp [threshold, thresholdLoop, colorKeys]
  · intro hu hnone
    subst hu
    have h0 := hnone 0 (by decide)
    have h1 := hnone 1 (by decide)
    have h2 := hnone 2 (by decide)
    rcases color with _ | ⟨a, _ | ⟨b, _ | ⟨c, rest⟩⟩⟩
    · simp [threshold, thresholdLoop, colorKeys]
    · simp at h0
      subst h0
      simp [threshold, thresholdLoop, colorKeys]
    · simp at h0 h1
      subst h0 h1
      simp [threshold, thresholdLoop, colorKeys]
    · simp at h0 h1 h2
      subst h0 h1 h2
      simp [threshold, thresholdLoop, colorKeys]
  · intro hu hc
    subst hu hc
    simp [threshold, thresholdLoop, colorKeys]

/-- C5, on the CPU temperature call shape with only the third predicate
true: the good colour is applied. -/
theorem threshold_spec_witness :
    threshold (outputsText "61℃".toList) false [false, false, true]
      = (outputsText "61℃".toList).Color (Scheme "good") :=
  (threshold_spec (outputsText "61℃".toList) false [false, false, true]).2.2.2.1
    rfl (by decide) (by decide) (by decide)

/-! ## The wlan formatter -/

/-- C6 (as stated, refuted): a snapshot that is neither connected nor
connecting but whose card is enabled is rendered as a segment, `W: down`
in the bad colour, not as an absent output. -/
theorem wlanFormat_disconnected_enabled_shown :
    wlanFormat { connected := false, connecting := false, enabled := true,
                 SSID := [], IPs := [] }
      = some { text := "W: down".toList, color := some "#f00", urgent := none } ∧
    wlanFormat { connected := false, connecting := false, enabled := true,
                 SSID := [], IPs := [] } ≠ none := by
  refine ⟨by decide, by decide⟩

/-- C6 (amended): for every wifi snapshot that is neither connected nor
connecting, the wlan formatter returns the segment `W: down` in the bad
colour when the card is enabled, and an absent output exactly when the card
is not enabled. -/
theorem wlanFormat_disconnected (w : WlanInfo)
    (hc : w.connected = false) (hg : w.connecting = false) :
    (w.enabled = true →
      wlanFormat w = some ((outputsText "W: down".toList).Color (Scheme "bad"))) ∧
    (w.enabled = false → wlanFormat w = none) ∧
    (wlanFormat w = none ↔ w.enabled = false) := by
  unfold wlanFormat
  cases he : w.enabled <;> simp [hc, hg]

/-- C6 (amended), at a snapshot of a card that is not enabled. -/
theorem wlanFormat_disconnected_witness :
    wlanFormat { connected := false, connecting := false, enabled := false,
                 SSID := "home".toList, IPs := [] } = none :=
  (wlanFormat_disconnected
    { connected := false, connecting := false, enabled := false,
      SSID := "home".toList, IPs := [] } rfl rfl).2.1 rfl

/-! ## The battery formatter -/

/-- C7: for a discharging battery the formatter produces a segment whose text
contains the remaining percentage followed by `%`, coloured bad if and only
if the percentage is below 20 or the remaining time is below 30 minutes; at
15 %, 20 minutes, the text contains `15%` and the colour is bad.  For a
battery that is not discharging no produced segment has the bad colour. -/
theorem batteryFormat_spec (durString : Int → List Char) (b : BatteryInfo) :
    (b.Status = .Discharging →
      ∃ seg, batteryFormat durString b = some seg ∧
        (fmtD b.remainingPct ++ "%".toList) <:+: seg.text ∧
        (seg.color = Scheme "bad" ↔
          (b.remainingPct < 20 ∨ b.remainingTime < 30 * Minute)) ∧
        (b.remainingPct < 20 → seg.color = Scheme "bad") ∧
        (b.remainingTime < 30 * Minute → seg.color = Scheme "bad")) ∧
    (b.Status ≠ .Discharging →
      ∀ seg, batteryFormat durString b = some seg → seg.color ≠ Scheme "bad") ∧
    (∃ seg, batteryFormat durString
        { Status := .Discharging, remainingPct := 15, remainingTime := 20 * Minute }
          = some seg ∧
        "15%".toList <:+: seg.text ∧ seg.color = Scheme "bad") := by
  have hsub : ∀ (a p d : List Char),
      (p ++ "%".toList) <:+: (a ++ " ".toList ++ p ++ "% ".toList ++ d) := by
    intro a p d
    refine ⟨a ++ " ".toList, " ".toList ++ d, ?_⟩
    simp [List.append_assoc]
  have hval : ∀ b : BatteryInfo, b.Status = .Discharging →
      batteryFormat durString b =
        some (if b.remainingPct < 20 ∨ b.remainingTime < 30 * Minute then
          (outputsText ("BAT".toList ++ " ".toList ++ fmtD b.remainingPct ++ "% ".toList
            ++ durString b.remainingTime)).Color (Scheme "bad")
          else outputsText ("BAT".toList ++ " ".toList ++ fmtD b.remainingPct
            ++ "% ".toList ++ durString b.remainingTime)) := by
    intro b hst
    unfold batteryFormat
    rw [hst]
    by_cases hbad : b.remainingPct < 20 ∨ b.remainingTime < 30 * Minute
    · simp [BatteryInfo.Discharging, hst, hbad, statusName]
    · simp [BatteryInfo.Discharging, hst, hbad, statusName]
  refine ⟨?_, ?_, ?_⟩
  · intro hst
    refine ⟨_, hval b hst, ?_⟩
    by_cases hbad : b.remainingPct < 20 ∨ b.remainingTime < 30 * Minute
    · rw [if_pos hbad]
      refine ⟨hsub _ _ _, ?_, ?_, ?_⟩
      · simp [Segment.Color, hbad]
      · intro _; rfl
      · intro _; rfl
    · rw [if_neg hbad]
      refine ⟨hsub _ _ _, ?_, ?_, ?_⟩
      · simp [outputsText, Scheme, hbad]
      · intro h; exact absurd (Or.inl h) hbad
      · intro h; exact absurd (Or.inr h) hbad
  · intro hst seg hseg
    unfold batteryFormat at hseg
    have hd : b.Discharging = false := by
      simp [BatteryInfo.Discharging, hst]
    by_cases h1 : b.Status = .Disconnected
    · simp [h1] at hseg
    · by_cases h2 : b.Status = .Full
      · simp [h2] at hseg
        subst hseg
        simp [outputsText, Scheme]
      · simp [h1, h2, hd] at hseg
        subst hseg
        simp [outputsText, Scheme]
  · refine ⟨_, hval _ rfl, ?_⟩
    rw [if_pos (Or.inl (by decide))]
    exact ⟨hsub "BAT".toList "15".toList _, rfl⟩

/-- C7, at a discharging battery with 15 % and 20 minutes left. -/
theorem batteryFormat_spec_witness :
    ∃ seg, batteryFormat (fun _ => "20m0s".toList)
        { Status := .Discharging, remainingPct := 15, remainingTime := 20 * Minute }
          = some seg ∧
      (fmtD 15 ++ "%".toList) <:+: seg.text ∧
      (seg.color = Scheme "bad" ↔ ((15 : Int) < 20 ∨ 20 * Minute < 30 * Minute)) := by
  obtain ⟨seg, h1, h2, h3, _⟩ := (batteryFormat_spec (fun _ => "20m0s".toList)
    { Status := .Discharging, remainingPct := 15, remainingTime := 20 * Minute }).1 rfl
  exact ⟨seg, h1, h2, h3⟩

/-! ## The media formatter -/

theorem runeLen_pos (c : Char) : 1 ≤ runeLen c ∧ runeLen c ≤ 4 := by
  unfold runeLen
  split_ifs <;> omega

theorem length_le_len (s : List Char) : (s.length : Int) ≤ len s ∧ len s ≤ 4 * s.length := by
  unfold len
  induction s with
  | nil => simp
  | cons c t ih =>
    have hc := runeLen_pos c
    simp only [List.map_cons, List.sum_cons, List.length_cons]
    push_cast at ih ⊢
    omega

theorem truncate_length_le (s : List Char) (l : Int) (r : List Char)
    (hmin : -2 ^ 63 < l) (hmax : l < 2 ^ 63) (hs : (s.length : Int) < 2 ^ 63)
    (h : truncate s l = .ok r) : (r.length : Int) ≤ |l| := by
  rcases lt_trichotomy l 0 with hl | hl | hl
  · rw [truncate_neg s l hmin hl hs] at h
    rw [abs_of_neg hl]
    by_cases hle : (s.length : Int) ≤ -l
    · rw [if_pos hle] at h
      cases h
      exact hle
    · rw [if_neg hle] at h
      cases h
      simp only [List.length_cons, List.length_drop]
      omega
  · subst hl
    rw [truncate_nonneg s 0 le_rfl (by norm_num)] at h
    by_cases hle : (s.length : Int) ≤ 0
    · rw [if_pos hle] at h
      cases h
      simpa using hle
    · rw [if_neg hle] at h
      simp at h
  · rw [truncate_nonneg s l hl.le hmax] at h
    rw [abs_of_pos hl]
    by_cases hle : (s.length : Int) ≤ l
    · rw [if_pos hle] at h
      cases h
      exact hle
    · have h1 : 1 ≤ l := hl
      rw [if_neg hle, if_pos h1] at h
      cases h
      simp only [List.length_append, List.length_take, List.length_singleton]
      omega

theorem truncate_ok_of_ne_zero (s : List Char) (l : Int) (hl : l ≠ 0)
    (hmin : -2 ^ 63 < l) (hmax : l < 2 ^ 63) (hs : (s.length : Int) < 2 ^ 63) :
    ∃ r, truncate s l = .ok r := by
  rcases lt_or_gt_of_ne hl with h | h
  · rw [truncate_neg s l hmin h hs]
    split_ifs <;> exact ⟨_, rfl⟩
  · rw [truncate_nonneg s l h.le hmax]
    have h1 : 1 ≤ l := h
    split_ifs <;> exact ⟨_, rfl⟩

/-- The first pass of `mediaFormatFunc`: it never panics, the artist it shows
has at most 14 code points and at most 56 bytes, so the title limit
`50 - len(artist)` lies between `-6` and `50` and does not wrap. -/
theorem firstPass_ok (A : List Char) (hA : (A.length : Int) < 2 ^ 63) :
    ∃ a1, truncate A 14 = .ok a1 ∧ (a1.length : Int) ≤ 14 ∧
      (a1.length : Int) ≤ len a1 ∧ len a1 ≤ 56 ∧
      wrapInt (50 - len a1) = 50 - len a1 := by
  obtain ⟨a1, h1⟩ := truncate_ok_of_ne_zero A 14 (by norm_num) (by norm_num) (by norm_num) hA
  have hlen := truncate_length_le A 14 a1 (by norm_num) (by norm_num) hA h1
  have hb := length_le_len a1
  rw [abs_of_pos (by norm_num : (0 : Int) < 14)] at hlen
  refine ⟨a1, h1, hlen, hb.1, by omega, ?_⟩
  apply wrapInt_of_range <;> norm_num <;> omega

/-- The three stages of `mediaFormatFunc` for a snapshot that is neither
stopped nor disconnected, with the results of the truncations named. -/
theorem mediaFormatFunc_stages (m : MediaInfo) (o : MediaOutput)
    (hA : (m.Artist.length : Int) < 2 ^ 63)
    (h : mediaFormatFunc m = .ok (some o)) :
    ∃ a1, truncate m.Artist 14 = .ok a1 ∧ (a1.length : Int) ≤ 14 ∧
      (a1.length : Int) ≤ len a1 ∧ len a1 ≤ 56 ∧
      truncate m.Title (50 - len a1) = .ok o.title ∧
      ((len o.title < 35 ∧ truncate m.Artist (35 - len o.title) = .ok o.artist) ∨
       (35 ≤ len o.title ∧ o.artist = a1)) := by
  obtain ⟨a1, h1, hl1, hb1, hb2, hw⟩ := firstPass_ok m.Artist hA
  refine ⟨a1, h1, hl1, hb1, hb2, ?_⟩
  unfold mediaFormatFunc at h
  by_cases hst : m.PlaybackStatus = .Stopped ∨ m.PlaybackStatus = .Disconnected
  · rw [if_pos hst] at h
    cases h
  · rw [if_neg hst] at h
    simp only [h1, hw] at h
    cases ht : truncate m.Title (50 - len a1) with
    | error e => simp [ht] at h
    | ok t =>
      simp only [ht] at h
      by_cases h35 : len t < 35
      · have hw2 : wrapInt (35 - len t) = 35 - len t := by
          have := length_le_len t
          apply wrapInt_of_range <;> norm_num <;> omega
        simp only [h35, if_true, hw2] at h
        cases ha : truncate m.Artist (35 - len t) with
        | error e => simp [ha] at h
        | ok a2 =>
          simp only [ha] at h
          cases h
          exact ⟨rfl, Or.inl ⟨h35, ha⟩⟩
      · simp only [h35, if_false] at h
        cases h
        exact ⟨rfl, Or.inr ⟨not_lt.mp h35, rfl⟩⟩

/-- C8 (as stated, refuted): with an artist of 35 letters and an empty title
the formatter displays the artist whole, 35 code points, more than 34. -/
theorem mediaFormatFunc_artist_35 :
    (mediaFormatFunc
      { PlaybackStatus := .Paused, Artist := List.replicate 35 'a', Title := [],
        Length := 0, position := 0 }).map (Option.map (fun o => (o.title, o.artist)))
      = .ok (some ([], List.replicate 35 'a')) ∧
    ¬ ((List.replicate 35 'a').length ≤ 34) := by
  refine ⟨by decide, by decide⟩

/-- C8 (amended): whenever `mediaFormatFunc` produces output, the displayed
artist and title together have at most 50 code points, and the displayed
artist alone has at most 35 code points: at most 34 when the displayed title
is not empty, and at most 14 unless the second pass re-truncates it. -/
theorem mediaFormatFunc_budget (m : MediaInfo) (o : MediaOutput)
    (hA : (m.Artist.length : Int) < 2 ^ 63) (hT : (m.Title.length : Int) < 2 ^ 63)
    (h : mediaFormatFunc m = .ok (some o)) :
    o.artist.length + o.title.length ≤ 50 ∧
    o.artist.length ≤ 35 ∧
    (o.title ≠ [] → o.artist.length ≤ 34) ∧
    (¬ len o.title < 35 → o.artist.length ≤ 14) := by
  obtain ⟨a1, h1, hl1, hb1, hb2, ht, hcase⟩ := mediaFormatFunc_stages m o hA h
  have htl := truncate_length_le m.Title (50 - len a1) o.title
    (by norm_num; omega) (by norm_num; omega) hT ht
  have htb := length_le_len o.title
  have htne : o.title ≠ [] → 1 ≤ o.title.length := fun hne =>
    List.length_pos.mpr hne
  rcases hcase with ⟨h35, ha⟩ | ⟨h35, ha⟩
  · have hal := truncate_length_le m.Artist (35 - len o.title) o.artist
      (by norm_num; omega) (by norm_num; omega) hA ha
    rw [abs_of_pos (by omega)] at hal
    refine ⟨by omega, by omega, ?_, ?_⟩
    · intro hne
      have := htne hne
      omega
    · intro hn
      exact absurd h35 hn
  · subst ha
    have habs : |50 - len o.artist| ≤ 50 - (o.artist.length : Int) ∨ |50 - len o.artist| ≤ 6 := by
      rcases le_or_lt 0 (50 - len o.artist) with hp | hp
      · left
        rw [abs_of_nonneg hp]
        omega
      · right
        rw [abs_of_neg hp]
        omega
    refine ⟨by omega, by omega, ?_, ?_⟩
    · intro _
      omega
    · intro _
      omega

/-- C8 (amended), at a paused snapshot with a 20-letter artist and a
40-letter title: the formatter shows 14 and 34 code points. -/
theorem mediaFormatFunc_budget_witness :
    "abcdefghijklm⋯".toList.length + (List.replicate 33 'x' ++ [ellipsis]).length ≤ 50 ∧
      "abcdefghijklm⋯".toList.length ≤ 35 ∧
      "abcdefghijklm⋯".toList.length ≤ 34 ∧
      "abcdefghijklm⋯".toList.length ≤ 14 :=
  have h := mediaFormatFunc_budget
    { PlaybackStatus := .Paused, Artist := "abcdefghijklmnopqrst".toList,
      Title := List.replicate 40 'x', Length := 0, position := 0 }
    { iconAndPosition := makeMediaIconAndPosition
        { PlaybackStatus := .Paused, Artist := "abcdefghijklmnopqrst".toList,
          Title := List.replicate 40 'x', Length := 0, position := 0 }
      repeating := false
      title := List.replicate 33 'x' ++ [ellipsis]
      artist := "abcdefghijklm⋯".toList }
    (by decide) (by decide) (by rfl)
  ⟨h.1, h.2.1, h.2.2.1 (by decide), h.2.2.2 (by decide)⟩

/-- C9: at a playing snapshot with a 20-letter artist and a 30-letter title
the second pass runs (the title has 30 bytes, fewer than 35) and cuts the
artist to `35 - 30 = 5` code points: the displayed artist keeps 4 code points
of the original where the first pass kept 13. -/
theorem mediaFormatFunc_second_pass_shrinks :
    firstPassArtist
        { PlaybackStatus := .Playing, Artist := "abcdefghijklmnopqrst".toList,
          Title := List.replicate 30 'x', Length := 0, position := 0 }
      = .ok "abcdefghijklm⋯".toList ∧
    (mediaFormatFunc
        { PlaybackStatus := .Playing, Artist := "abcdefghijklmnopqrst".toList,
          Title := List.replicate 30 'x', Length := 0, position := 0 }).map
        (Option.map (fun o => (o.title, o.artist)))
      = .ok (some (List.replicate 30 'x', "abcd⋯".toList)) ∧
    len (List.replicate 30 'x') < 35 ∧
    keptRunes "abcdefghijklmnopqrst".toList "abcdefghijklm⋯".toList = 13 ∧
    keptRunes "abcdefghijklmnopqrst".toList "abcd⋯".toList = 4 := by
  refine ⟨by decide, by decide, by decide, by decide, by decide⟩

/-- The number of code points that `truncate` with a positive limit keeps of
a text: all of them if the text fits, `l - 1` otherwise. -/
theorem truncate_keptRunes (s : List Char) (l : Int) (r : List Char) (hl : 0 < l)
    (hmax : l < 2 ^ 63) (h : truncate s l = .ok r) :
    (keptRunes s r : Int) = if (s.length : Int) ≤ l then (s.length : Int) else l - 1 := by
  rw [truncate_nonneg s l hl.le hmax] at h
  by_cases hle : (s.length : Int) ≤ l
  · rw [if_pos hle] at h ⊢
    cases h
    simp [keptRunes]
  · have h1 : 1 ≤ l := hl
    rw [if_neg hle, if_pos h1] at h
    rw [if_neg hle]
    cases h
    have hlen : (s.take (l - 1).toNat ++ [ellipsis]).length = (l - 1).toNat + 1 := by
      simp only [List.length_append, List.length_take, List.length_singleton]
      omega
    have hne : s.take (l - 1).toNat ++ [ellipsis] ≠ s := by
      intro heq
      have := congrArg List.length heq
      rw [hlen] at this
      omega
    unfold keptRunes
    rw [if_neg hne, hlen]
    omega

/-- The second pass of `mediaFormatFunc` does keep at least as many code
points of the artist as the first pass whenever the displayed title has at
most 21 bytes, the range in which `35 - len(title)` is at least 14. -/
theorem mediaFormatFunc_second_pass_keeps (m : MediaInfo) (o : MediaOutput) (a1 : List Char)
    (hA : (m.Artist.length : Int) < 2 ^ 63)
    (h : mediaFormatFunc m = .ok (some o)) (h1 : firstPassArtist m = .ok a1)
    (h21 : len o.title ≤ 21) :
    keptRunes m.Artist a1 ≤ keptRunes m.Artist o.artist := by
  obtain ⟨a1', ha1, _, _, _, _, hcase⟩ := mediaFormatFunc_stages m o hA h
  unfold firstPassArtist at h1
  rw [h1] at ha1
  cases ha1
  have hk1 := truncate_keptRunes m.Artist 14 a1 (by norm_num) (by norm_num) h1
  have hb := length_le_len o.title
  rcases hcase with ⟨_, ha2⟩ | ⟨h35, _⟩
  · have hk2 := truncate_keptRunes m.Artist (35 - len o.title) o.artist (by omega)
      (by norm_num; omega) ha2
    have goal : (keptRunes m.Artist a1 : Int) ≤ (keptRunes m.Artist o.artist : Int) := by
      rw [hk1, hk2]
      split_ifs <;> omega
    exact_mod_cast goal
  · omega

/-- C10: at a playing snapshot whose artist has 14 code points and 50 bytes
(twelve 4-byte code points and two letters) and whose title is one letter,
the title limit `50 - len(artist)` is 0 and `mediaFormatFunc` panics with a
slice bound out of range. -/
theorem mediaFormatFunc_panics_at_50_bytes :
    (List.replicate 12 '𝄞' ++ "ab".toList).length = 14 ∧
    len (List.replicate 12 '𝄞' ++ "ab".toList) = 50 ∧
    truncate (List.replicate 12 '𝄞' ++ "ab".toList) 14
      = .ok (List.replicate 12 '𝄞' ++ "ab".toList) ∧
    mediaFormatFunc
        { PlaybackStatus := .Playing, Artist := List.replicate 12 '𝄞' ++ "ab".toList,
          Title := "x".toList, Length := 0, position := 0 }
      = .error .sliceBoundsOutOfRange := by
  refine ⟨by decide, by decide, by decide, by decide⟩

/-- The inputs on which `mediaFormatFunc` panics: the snapshot is neither
stopped nor disconnected, the title is not empty, and the artist shown by the
first pass has exactly 50 bytes, so that the title limit is 0.  The other two
truncations never fail. -/
theorem mediaFormatFunc_panics_iff (m : MediaInfo)
    (hA : (m.Artist.length : Int) < 2 ^ 63) (hT : (m.Title.length : Int) < 2 ^ 63) :
    (∃ e, mediaFormatFunc m = .error e) ↔
      (m.PlaybackStatus ≠ .Stopped ∧ m.PlaybackStatus ≠ .Disconnected ∧ m.Title ≠ [] ∧
        ∃ a1, truncate m.Artist 14 = .ok a1 ∧ len a1 = 50) := by
  obtain ⟨a1, h1, hl1, hb1, hb2, hw⟩ := firstPass_ok m.Artist hA
  have third : ∀ t : List Char, len t < 35 →
      ∃ a2, truncate m.Artist (wrapInt (35 - len t)) = .ok a2 := by
    intro t h35
    have hw2 : wrapInt (35 - len t) = 35 - len t := by
      have := length_le_len t
      apply wrapInt_of_range <;> norm_num <;> omega
    have := length_le_len t
    rw [hw2]
    exact truncate_ok_of_ne_zero m.Artist _ (by omega) (by norm_num; omega)
      (by norm_num; omega) hA
  have tail : ∀ t : List Char, ∀ e : RuntimeError,
      (match (if len t < 35 then truncate m.Artist (wrapInt (35 - len t))
              else Except.ok a1) with
        | Except.error e => (Except.error e : Result (Option MediaOutput))
        | Except.ok artist => Except.ok (some
            { iconAndPosition := makeMediaIconAndPosition m
              repeating := decide (m.PlaybackStatus = PlaybackStatus.Playing)
              title := t
              artist := artist })) ≠ Except.error e := by
    intro t e
    by_cases h35 : len t < 35
    · obtain ⟨a2, ha2⟩ := third t h35
      simp [h35, ha2]
    · simp [h35]
  unfold mediaFormatFunc
  by_cases hst : m.PlaybackStatus = .Stopped ∨ m.PlaybackStatus = .Disconnected
  · rw [if_pos hst]
    constructor
    · rintro ⟨e, he⟩
      cases he
    · rintro ⟨h1, h2, _⟩
      rcases hst with h | h
      · exact absurd h h1
      · exact absurd h h2
  · rw [if_neg hst]
    simp only [h1, hw]
    have hst1 : m.PlaybackStatus ≠ .Stopped := fun h => hst (Or.inl h)
    have hst2 : m.PlaybackStatus ≠ .Disconnected := fun h => hst (Or.inr h)
    by_cases h0 : 50 - len a1 = 0
    · rw [h0, truncate_nonneg m.Title 0 le_rfl (by norm_num)]
      by_cases hle : (m.Title.length : Int) ≤ 0
      · have hnil : m.Title = [] := by
          have : m.Title.length = 0 := by omega
          exact List.length_eq_zero.mp this
        rw [if_pos hle]
        constructor
        · rintro ⟨e, he⟩
          exact absurd he (tail _ e)
        · rintro ⟨_, _, hne, _⟩
          exact absurd hnil hne
      · rw [if_neg hle]
        have hne : m.Title ≠ [] := by
          intro h
          rw [h] at hle
          simp at hle
        constructor
        · intro _
          exact ⟨hst1, hst2, hne, a1, rfl, by omega⟩
        · intro _
          exact ⟨.sliceBoundsOutOfRange, by simp⟩
    · obtain ⟨t, ht⟩ := truncate_ok_of_ne_zero m.Title (50 - len a1) h0
        (by norm_num; omega) (by norm_num; omega) hT
      rw [ht]
      constructor
      · rintro ⟨e, he⟩
        exact absurd he (tail _ e)
      · rintro ⟨_, _, _, a1', ha1', h50⟩
        cases ha1'
        omega

/-! ## binary64 rounding -/

theorem log2Floor_spec : ∀ (fuel n : Nat), 1 ≤ n → n ≤ fuel →
    2 ^ log2Floor fuel n ≤ n ∧ n < 2 ^ (log2Floor fuel n + 1) := by
  intro fuel
  induction fuel with
  | zero =>
    intro n h1 h2
    omega
  | succ fuel ih =>
    intro n h1 h2
    unfold log2Floor
    by_cases hn : n < 2
    · have : n = 1 := by omega
      subst this
      simp
    · rw [if_neg hn]
      obtain ⟨ihl, ihr⟩ := ih (n / 2) (by omega) (by omega)
      rw [Nat.pow_succ] at ihr ⊢
      rw [Nat.pow_succ]
      constructor <;> omega

theorem binade_spec (x : ℚ) (hx : 0 < x) :
    (2 : ℚ) ^ binade x ≤ x ∧ x < (2 : ℚ) ^ (binade x + 1) := by
  have hnum : 0 < x.num := Rat.num_pos.mpr hx
  have hp1 : 1 ≤ x.num.natAbs := by omega
  have hq1 : 1 ≤ x.den := x.den_pos
  obtain ⟨a1, a2⟩ := log2Floor_spec x.num.natAbs x.num.natAbs hp1 le_rfl
  obtain ⟨b1, b2⟩ := log2Floor_spec x.den x.den hq1 le_rfl
  have hxpq : x = (x.num.natAbs : ℚ) / (x.den : ℚ) := by
    have hc : (x.num.natAbs : ℚ) = (x.num : ℚ) := by
      rw [← Int.cast_natCast, Int.natAbs_of_nonneg hnum.le]
    rw [hc]
    exact (Rat.num_div_den x).symm
  have hq0 : (0 : ℚ) < (x.den : ℚ) := by exact_mod_cast hq1
  have A1 : (2 : ℚ) ^ log2Floor x.num.natAbs x.num.natAbs ≤ (x.num.natAbs : ℚ) := by
    exact_mod_cast a1
  have A2 : (x.num.natAbs : ℚ) < (2 : ℚ) ^ (log2Floor x.num.natAbs x.num.natAbs + 1) := by
    exact_mod_cast a2
  have B1 : (2 : ℚ) ^ log2Floor x.den x.den ≤ (x.den : ℚ) := by exact_mod_cast b1
  have B2 : (x.den : ℚ) < (2 : ℚ) ^ (log2Floor x.den x.den + 1) := by exact_mod_cast b2
  have hpa : (0 : ℚ) < (2 : ℚ) ^ log2Floor x.num.natAbs x.num.natAbs := by positivity
  have hpb : (0 : ℚ) < (2 : ℚ) ^ log2Floor x.den x.den := by positivity
  have e0 : (2 : ℚ) ^ ((log2Floor x.num.natAbs x.num.natAbs : Int)
        - (log2Floor x.den x.den : Int))
      = (2 : ℚ) ^ log2Floor x.num.natAbs x.num.natAbs / (2 : ℚ) ^ log2Floor x.den x.den := by
    rw [zpow_sub₀ (by norm_num : (2 : ℚ) ≠ 0), zpow_natCast, zpow_natCast]
  unfold binade
  simp only []
  split_ifs with h
  · refine ⟨h, ?_⟩
    rw [zpow_add_one₀ (by norm_num : (2 : ℚ) ≠ 0), e0]
    rw [pow_succ] at A2
    calc x = (x.num.natAbs : ℚ) / (x.den : ℚ) := hxpq
      _ ≤ (x.num.natAbs : ℚ) / (2 : ℚ) ^ log2Floor x.den x.den :=
          div_le_div_of_nonneg_left (by positivity) hpb B1
      _ < (2 : ℚ) ^ log2Floor x.num.natAbs x.num.natAbs * 2
            / (2 : ℚ) ^ log2Floor x.den x.den :=
          div_lt_div_of_pos_right A2 hpb
      _ = (2 : ℚ) ^ log2Floor x.num.natAbs x.num.natAbs
            / (2 : ℚ) ^ log2Floor x.den x.den * 2 := by ring
  · refine ⟨?_, ?_⟩
    · rw [zpow_sub_one₀ (by norm_num : (2 : ℚ) ≠ 0), e0]
      rw [pow_succ] at B2
      have hB2 : (0 : ℚ) < (2 : ℚ) ^ log2Floor x.den x.den * 2 := by positivity
      calc (2 : ℚ) ^ log2Floor x.num.natAbs x.num.natAbs
              / (2 : ℚ) ^ log2Floor x.den x.den * 2⁻¹
          = (2 : ℚ) ^ log2Floor x.num.natAbs x.num.natAbs
              / ((2 : ℚ) ^ log2Floor x.den x.den * 2) := by
            field_simp
        _ ≤ (x.num.natAbs : ℚ) / ((2 : ℚ) ^ log2Floor x.den x.den * 2) :=
            div_le_div_of_nonneg_right A1 hB2.le
        _ ≤ (x.num.natAbs : ℚ) / (x.den : ℚ) :=
            div_le_div_of_nonneg_left (by positivity) hq0 B2.le
        _ = x := hxpq.symm
    · have := lt_of_not_le h
      simpa using this

theorem roundHalfEven_nearest (x : ℚ) (n : Int) :
    |(roundHalfEven x : ℚ) - x| ≤ |(n : ℚ) - x| := by
  have hf : ((⌊x⌋ : Int) : ℚ) ≤ x := Int.floor_le x
  have hf1 : x < ((⌊x⌋ : Int) : ℚ) + 1 := Int.lt_floor_add_one x
  have hR1 : x - n ≤ |(n : ℚ) - x| := by
    rw [abs_sub_comm]
    exact le_abs_self _
  have hR2 : (n : ℚ) - x ≤ |(n : ℚ) - x| := le_abs_self _
  have hcase : (n : ℚ) ≤ ((⌊x⌋ : Int) : ℚ) ∨ ((⌊x⌋ : Int) : ℚ) + 1 ≤ (n : ℚ) := by
    rcases le_or_lt n ⌊x⌋ with h | h
    · left
      exact_mod_cast h
    · right
      have : ⌊x⌋ + 1 ≤ n := h
      exact_mod_cast this
  unfold roundHalfEven
  simp only []
  split_ifs with h1 h2 h3
  · rw [abs_le]
    rcases hcase with h | h <;> constructor <;> linarith
  · rw [abs_le]
    push_cast
    rcases hcase with h | h <;> constructor <;> linarith
  · rw [abs_le]
    have hr : x - ((⌊x⌋ : Int) : ℚ) = 1 / 2 := le_antisymm (not_lt.mp h2) (not_lt.mp h1)
    rcases hcase with h | h <;> constructor <;> linarith
  · rw [abs_le]
    push_cast
    have hr : x - ((⌊x⌋ : Int) : ℚ) = 1 / 2 := le_antisymm (not_lt.mp h2) (not_lt.mp h1)
    rcases hcase with h | h <;> constructor <;> linarith

theorem f64RoundPos_grid (x : ℚ) (n : Int) :
    |f64RoundPos x - x| ≤ |(n : ℚ) * (2 : ℚ) ^ ulpExp x - x| := by
  have hu : (0 : ℚ) < (2 : ℚ) ^ ulpExp x := by positivity
  have h := roundHalfEven_nearest (x / (2 : ℚ) ^ ulpExp x) n
  have e1 : f64RoundPos x - x
      = ((roundHalfEven (x / (2 : ℚ) ^ ulpExp x) : ℚ) - x / (2 : ℚ) ^ ulpExp x)
          * (2 : ℚ) ^ ulpExp x := by
    unfold f64RoundPos
    field_simp
  have e2 : (n : ℚ) * (2 : ℚ) ^ ulpExp x - x
      = ((n : ℚ) - x / (2 : ℚ) ^ ulpExp x) * (2 : ℚ) ^ ulpExp x := by
    field_simp
  rw [e1, e2, abs_mul, abs_mul]
  exact mul_le_mul_of_nonneg_right h (abs_nonneg _)

theorem isF64_neg (a : ℚ) (ha : IsF64 a) : IsF64 (-a) := by
  obtain ⟨m, k, hm, hk, rfl⟩ := ha
  refine ⟨-m, k, by simpa using hm, hk, ?_⟩
  push_cast
  ring

theorem isF64_int (n : Int) (hn : |n| < 2 ^ 53) : IsF64 (n : ℚ) :=
  ⟨n, 0, hn, by norm_num, by simp⟩

theorem f64RoundPos_nearest (x a : ℚ) (hx : 0 < x) (ha : IsF64 a) :
    |f64RoundPos x - x| ≤ |a - x| := by
  obtain ⟨m, j, hm, hj, rfl⟩ := ha
  have h2 : (2 : ℚ) ≠ 0 := by norm_num
  by_cases hjk : ulpExp x ≤ j
  · have hN : ((j - ulpExp x).toNat : Int) = j - ulpExp x :=
      Int.toNat_of_nonneg (by omega)
    have hpow : (2 : ℚ) ^ j = (2 : ℚ) ^ (j - ulpExp x).toNat * (2 : ℚ) ^ ulpExp x := by
      rw [← zpow_natCast, hN, ← zpow_add₀ h2]
      congr 1
      ring
    have h := f64RoundPos_grid x (m * 2 ^ (j - ulpExp x).toNat)
    have e : ((m * 2 ^ (j - ulpExp x).toNat : Int) : ℚ) * (2 : ℚ) ^ ulpExp x
        = (m : ℚ) * (2 : ℚ) ^ j := by
      rw [hpow]
      push_cast
      ring
    rw [e] at h
    exact h
  · have hjk' : j < ulpExp x := not_le.mp hjk
    have hk : ulpExp x = binade x - 52 := by
      unfold ulpExp at hjk' ⊢
      rcases le_total (binade x - 52) (-1074) with h | h
      · rw [max_eq_right h] at hjk'
        omega
      · exact max_eq_left h
    obtain ⟨hb, _⟩ := binade_spec x hx
    have hgrid := f64RoundPos_grid x (2 ^ 52)
    have e : (((2 : Int) ^ 52 : Int) : ℚ) * (2 : ℚ) ^ ulpExp x = (2 : ℚ) ^ binade x := by
      have : binade x = 52 + ulpExp x := by omega
      rw [this, zpow_add₀ h2]
      norm_num
    rw [e] at hgrid
    have hmq : (m : ℚ) < 2 ^ 53 := by
      have : m < 2 ^ 53 := lt_of_le_of_lt (le_abs_self m) hm
      exact_mod_cast this
    have hpj : (0 : ℚ) < (2 : ℚ) ^ j := by positivity
    have ha1 : (m : ℚ) * (2 : ℚ) ^ j < (2 : ℚ) ^ binade x := by
      have h1 : (m : ℚ) * (2 : ℚ) ^ j < 2 ^ 53 * (2 : ℚ) ^ j :=
        mul_lt_mul_of_pos_right hmq hpj
      have h3 : (2 : ℚ) ^ 53 * (2 : ℚ) ^ j = (2 : ℚ) ^ (53 + j) := by
        rw [zpow_add₀ h2]
        norm_num
      have h4 : (2 : ℚ) ^ (53 + j) ≤ (2 : ℚ) ^ binade x :=
        zpow_le_zpow_right₀ (by norm_num) (by omega)
      linarith
    have hL : |(2 : ℚ) ^ binade x - x| = x - (2 : ℚ) ^ binade x := by
      rw [abs_sub_comm, abs_of_nonneg (by linarith)]
    have hR : x - (m : ℚ) * (2 : ℚ) ^ j ≤ |(m : ℚ) * (2 : ℚ) ^ j - x| := by
      rw [abs_sub_comm]
      exact le_abs_self _
    rw [hL] at hgrid
    linarith

/-- Rounding to binary64 returns a binary64 number nearest to its argument. -/
theorem f64Round_nearest (x a : ℚ) (ha : IsF64 a) : |f64Round x - x| ≤ |a - x| := by
  unfold f64Round
  split_ifs with h0 hpos
  · subst h0
    simp
  · exact f64RoundPos_nearest x a hpos ha
  · have hneg : 0 < -x := by
      rcases lt_trichotomy x 0 with h | h | h
      · linarith
      · exact absurd h h0
      · exact absurd h hpos
    have h := f64RoundPos_nearest (-x) (-a) hneg (isF64_neg a ha)
    have e1 : |-f64RoundPos (-x) - x| = |f64RoundPos (-x) - -x| := by
      rw [← abs_neg]
      congr 1
      ring
    have e2 : |a - x| = |-a - -x| := by
      rw [← abs_neg]
      congr 1
      ring
    rw [e1, e2]
    exact h

theorem f64Round_of_isF64 (a : ℚ) (ha : IsF64 a) : f64Round a = a := by
  have h := f64Round_nearest a a ha
  rw [sub_self, abs_zero] at h
  have := abs_nonneg (f64Round a - a)
  have h0 : |f64Round a - a| = 0 := le_antisymm h this
  rw [abs_eq_zero] at h0
  linarith

theorem f64Round_le (x c : ℚ) (hc : IsF64 c) (h : x ≤ c) : f64Round x ≤ c := by
  have hn := f64Round_nearest x c hc
  rw [abs_of_nonneg (by linarith : 0 ≤ c - x)] at hn
  have := le_abs_self (f64Round x - x)
  linarith

theorem f64Round_ge (x c : ℚ) (hc : IsF64 c) (h : c ≤ x) : c ≤ f64Round x := by
  have hn := f64Round_nearest x c hc
  rw [abs_sub_comm c x, abs_of_nonneg (by linarith : 0 ≤ x - c)] at hn
  have := neg_abs_le (f64Round x - x)
  linarith

theorem f64Round_neg (x : ℚ) : f64Round (-x) = - f64Round x := by
  unfold f64Round
  rcases lt_trichotomy x 0 with h | h | h
  · have h1 : ¬ (-x = 0) := by
      intro h'
      linarith
    have h2 : (0 : ℚ) < -x := by linarith
    have h3 : ¬ (x = 0) := ne_of_lt h
    have h4 : ¬ (0 < x) := not_lt.mpr h.le
    simp [h1, h2, h3, h4]
  · subst h
    simp
  · have h1 : ¬ (-x = 0) := by
      intro h'
      linarith
    have h2 : ¬ ((0 : ℚ) < -x) := by
      intro h'
      linarith
    have h3 : ¬ (x = 0) := ne_of_gt h
    simp [h1, h2, h3, h]

theorem isF64_zero : IsF64 0 := ⟨0, 0, by norm_num, by norm_num, by simp⟩

/-- The conversion `int(float64(n) + y')`, `y'` the rounding of a fraction
`y` in `[0, c]`, is `n` whenever the binary64 numbers are fine enough around
`n + 1`: `c` and `n + 1 - u` are binary64 numbers and `c` is below
`1 - u / 2`. -/
theorem intOfF64_sum (n : Int) (y c u : ℚ) (hn : 0 ≤ n) (hFn : IsF64 (n : ℚ))
    (hFc : IsF64 c) (hFa : IsF64 ((n : ℚ) + 1 - u)) (hu : 0 < u)
    (hy0 : 0 ≤ y) (hyc : y ≤ c) (hc : 2 * c + u < 2) :
    intOfF64 (f64Round (f64Round (n : ℚ) + f64Round y)) = n := by
  rw [f64Round_of_isF64 _ hFn]
  have hf0 : 0 ≤ f64Round y := f64Round_ge y 0 isF64_zero hy0
  have hfc : f64Round y ≤ c := f64Round_le y c hFc hyc
  have hS0 : (n : ℚ) ≤ f64Round ((n : ℚ) + f64Round y) :=
    f64Round_ge _ _ hFn (by linarith)
  have hS1 : f64Round ((n : ℚ) + f64Round y) < (n : ℚ) + 1 := by
    have hnear := f64Round_nearest ((n : ℚ) + f64Round y) _ hFa
    have hle := le_abs_self (f64Round ((n : ℚ) + f64Round y) - ((n : ℚ) + f64Round y))
    rcases le_total ((n : ℚ) + f64Round y) ((n : ℚ) + 1 - u) with h | h
    · have e : |(n : ℚ) + 1 - u - ((n : ℚ) + f64Round y)|
          = (n : ℚ) + 1 - u - ((n : ℚ) + f64Round y) := abs_of_nonneg (by linarith)
      rw [e] at hnear
      linarith
    · have e : |(n : ℚ) + 1 - u - ((n : ℚ) + f64Round y)|
          = -((n : ℚ) + 1 - u - ((n : ℚ) + f64Round y)) := abs_of_nonpos (by linarith)
      rw [e] at hnear
      linarith
  have hnq : (0 : ℚ) ≤ (n : ℚ) := by exact_mod_cast hn
  unfold intOfF64
  rw [if_pos (by linarith)]
  exact Int.floor_eq_iff.mpr ⟨hS0, hS1⟩

theorem durationHours_floor (d : Int) (h0 : 0 ≤ d) (hlt : d < 4096 * Hour) :
    intOfF64 (durationHours d) = d / Hour := by
  have hH : Hour = 3600000000000 := by decide
  rw [hH] at hlt ⊢
  unfold durationHours
  rw [hH, Int.tdiv_eq_ediv h0 (by norm_num), Int.tmod_eq_emod h0 (by norm_num)]
  have hr0 : 0 ≤ d % 3600000000000 := Int.emod_nonneg _ (by norm_num)
  have hr1 : d % 3600000000000 < 3600000000000 := Int.emod_lt_of_pos _ (by norm_num)
  have hn0 : 0 ≤ d / 3600000000000 := Int.ediv_nonneg h0 (by norm_num)
  have hn1 : d / 3600000000000 < 4096 := by omega
  have hFr : IsF64 ((d % 3600000000000 : Int) : ℚ) :=
    isF64_int _ (by rw [abs_of_nonneg hr0]; norm_num; omega)
  rw [f64Round_of_isF64 _ hFr]
  have hrq : ((d % 3600000000000 : Int) : ℚ) ≤ 3600000000000 - 1 := by
    have : d % 3600000000000 ≤ 3600000000000 - 1 := by omega
    exact_mod_cast this
  have hrq0 : (0 : ℚ) ≤ ((d % 3600000000000 : Int) : ℚ) := by exact_mod_cast hr0
  have hnq1 : ((d / 3600000000000 : Int) : ℚ) + 1 ≤ 4096 := by
    have : d / 3600000000000 + 1 ≤ 4096 := by omega
    exact_mod_cast this
  have hnq0 : (0 : ℚ) ≤ ((d / 3600000000000 : Int) : ℚ) := by exact_mod_cast hn0
  refine intOfF64_sum _ _ (1 - 9 / 2 ^ 45) (1 / 2 ^ 41) hn0
    (isF64_int _ (by rw [abs_of_nonneg hn0]; norm_num; omega)) ?_ ?_ (by norm_num)
    (by positivity) ?_ (by norm_num)
  · refine ⟨2 ^ 45 - 9, -45, by norm_num, by norm_num, ?_⟩
    norm_num
  · refine ⟨(d / 3600000000000 + 1) * 2 ^ 41 - 1, -41, ?_, by norm_num, ?_⟩
    · rw [abs_of_nonneg (by omega)]
      norm_num
      omega
    · push_cast
      rw [zpow_neg]
      norm_num
      ring
  · rw [div_le_iff₀ (by norm_num)]
    norm_num
    linarith

theorem durationMinutes_floor (d : Int) (h0 : 0 ≤ d) (hlt : d < 4096 * Hour) :
    intOfF64 (durationMinutes d) = d / Minute := by
  have hH : Minute = 60000000000 := by decide
  have hH' : Hour = 3600000000000 := by decide
  rw [hH'] at hlt
  rw [hH]
  unfold durationMinutes
  rw [hH, Int.tdiv_eq_ediv h0 (by norm_num), Int.tmod_eq_emod h0 (by norm_num)]
  have hr0 : 0 ≤ d % 60000000000 := Int.emod_nonneg _ (by norm_num)
  have hr1 : d % 60000000000 < 60000000000 := Int.emod_lt_of_pos _ (by norm_num)
  have hn0 : 0 ≤ d / 60000000000 := Int.ediv_nonneg h0 (by norm_num)
  have hn1 : d / 60000000000 < 245760 := by omega
  have hFr : IsF64 ((d % 60000000000 : Int) : ℚ) :=
    isF64_int _ (by rw [abs_of_nonneg hr0]; norm_num; omega)
  rw [f64Round_of_isF64 _ hFr]
  have hrq : ((d % 60000000000 : Int) : ℚ) ≤ 60000000000 - 1 := by
    have : d % 60000000000 ≤ 60000000000 - 1 := by omega
    exact_mod_cast this
  have hrq0 : (0 : ℚ) ≤ ((d % 60000000000 : Int) : ℚ) := by exact_mod_cast hr0
  have hnq1 : ((d / 60000000000 : Int) : ℚ) + 1 ≤ 245760 := by
    have : d / 60000000000 + 1 ≤ 245760 := by omega
    exact_mod_cast this
  have hnq0 : (0 : ℚ) ≤ ((d / 60000000000 : Int) : ℚ) := by exact_mod_cast hn0
  refine intOfF64_sum _ _ (1 - 9 / 2 ^ 39) (1 / 2 ^ 35) hn0
    (isF64_int _ (by rw [abs_of_nonneg hn0]; norm_num; omega)) ?_ ?_ (by norm_num)
    (by positivity) ?_ (by norm_num)
  · refine ⟨2 ^ 39 - 9, -39, by norm_num, by norm_num, ?_⟩
    norm_num
  · refine ⟨(d / 60000000000 + 1) * 2 ^ 35 - 1, -35, ?_, by norm_num, ?_⟩
    · rw [abs_of_nonneg (by omega)]
      norm_num
      omega
    · push_cast
      rw [zpow_neg]
      norm_num
      ring
  · rw [div_le_iff₀ (by norm_num)]
    norm_num
    linarith

theorem durationSeconds_floor (d : Int) (h0 : 0 ≤ d) (hlt : d < 4096 * Hour) :
    intOfF64 (durationSeconds d) = d / Second := by
  have hH : Second = 1000000000 := by decide
  have hH' : Hour = 3600000000000 := by decide
  rw [hH'] at hlt
  rw [hH]
  unfold durationSeconds
  rw [hH, Int.tdiv_eq_ediv h0 (by norm_num), Int.tmod_eq_emod h0 (by norm_num)]
  have hr0 : 0 ≤ d % 1000000000 := Int.emod_nonneg _ (by norm_num)
  have hr1 : d % 1000000000 < 1000000000 := Int.emod_lt_of_pos _ (by norm_num)
  have hn0 : 0 ≤ d / 1000000000 := Int.ediv_nonneg h0 (by norm_num)
  have hn1 : d / 1000000000 < 14745600 := by omega
  have hFr : IsF64 ((d % 1000000000 : Int) : ℚ) :=
    isF64_int _ (by rw [abs_of_nonneg hr0]; norm_num; omega)
  rw [f64Round_of_isF64 _ hFr]
  have hrq : ((d % 1000000000 : Int) : ℚ) ≤ 1000000000 - 1 := by
    have : d % 1000000000 ≤ 1000000000 - 1 := by omega
    exact_mod_cast this
  have hrq0 : (0 : ℚ) ≤ ((d % 1000000000 : Int) : ℚ) := by exact_mod_cast hr0
  have hnq1 : ((d / 1000000000 : Int) : ℚ) + 1 ≤ 14745600 := by
    have : d / 1000000000 + 1 ≤ 14745600 := by omega
    exact_mod_cast this
  have hnq0 : (0 : ℚ) ≤ ((d / 1000000000 : Int) : ℚ) := by exact_mod_cast hn0
  refine intOfF64_sum _ _ (1 - 17 / 2 ^ 34) (1 / 2 ^ 29) hn0
    (isF64_int _ (by rw [abs_of_nonneg hn0]; norm_num; omega)) ?_ ?_ (by norm_num)
    (by positivity) ?_ (by norm_num)
  · refine ⟨2 ^ 34 - 17, -34, by norm_num, by norm_num, ?_⟩
    norm_num
  · refine ⟨(d / 1000000000 + 1) * 2 ^ 29 - 1, -29, ?_, by norm_num, ?_⟩
    · rw [abs_of_nonneg (by omega)]
      norm_num
      omega
    · push_cast
      rw [zpow_neg]
      norm_num
      ring
  · rw [div_le_iff₀ (by norm_num)]
    norm_num
    linarith

/-! ## `hms` and `formatMediaTime` -/

/-- For a non-negative duration of less than 4096 hours `hms` returns the
hours, the minutes modulo 60 and the seconds modulo 60 of its whole seconds. -/
theorem hms_of_lt (d : Int) (h0 : 0 ≤ d) (hlt : d < 4096 * Hour) :
    hms d = (d / Second / 3600, d / Second / 60 % 60, d / Second % 60) := by
  unfold hms
  rw [durationHours_floor d h0 hlt, durationMinutes_floor d h0 hlt,
    durationSeconds_floor d h0 hlt]
  have hH : Hour = 3600000000000 := by decide
  have hM : Minute = 60000000000 := by decide
  have hS : Second = 1000000000 := by decide
  rw [hH, hM, hS]
  have hm0 : 0 ≤ d / 60000000000 := Int.ediv_nonneg h0 (by norm_num)
  have hs0 : 0 ≤ d / 1000000000 := Int.ediv_nonneg h0 (by norm_num)
  rw [Int.tmod_eq_emod hm0 (by norm_num), Int.tmod_eq_emod hs0 (by norm_num)]
  refine Prod.ext ?_ (Prod.ext ?_ ?_) <;> simp only [] <;> omega

theorem fmt02D_of_lt (n : Int) (h0 : 0 ≤ n) (h : n < 60) : fmt02D n = twoDigits n.toNat := by
  obtain ⟨k, rfl⟩ := Int.eq_ofNat_of_zero_le h0
  have hk : k < 60 := by omega
  unfold fmt02D
  rw [if_neg (by omega)]
  simp only [Int.toNat_ofNat]
  interval_cases k <;> rfl

theorem fmtD_of_nonneg (n : Int) (h0 : 0 ≤ n) : fmtD n = digits n.toNat := by
  unfold fmtD
  rw [if_neg (by omega)]

/-- C3 (as stated, refuted): for the non-negative duration of 4097 hours less
one nanosecond, whose whole seconds are 4096 h 59 min 59 s, the float64 sum
`float64(4096) + 0.99999999999972…` computed by `Duration.Hours` rounds to
`4097`, and `formatMediaTime` returns `4097:59:59`, not `4096:59:59`. -/
theorem formatMediaTime_rounds_hour_up :
    (0 : Int) ≤ 14749199999999999 ∧
    (14749199999999999 : Int) / Second / 3600 = 4096 ∧
    (14749199999999999 : Int) / Second / 60 % 60 = 59 ∧
    (14749199999999999 : Int) / Second % 60 = 59 ∧
    hms 14749199999999999 = (4097, 59, 59) ∧
    formatMediaTime 14749199999999999 = "4097:59:59".toList := by
  refine ⟨by decide, by decide, by decide, by decide, ?_, ?_⟩ <;>
    with_unfolding_all decide

/-- C3 (amended): for every non-negative duration `d` of less than 4096 hours,
with `T` its whole seconds, `formatMediaTime(d)` uses `h = T / 3600`,
`m = (T / 60) mod 60`, `s = T mod 60` and returns `h:MM:SS` (`h` in unpadded
decimal, minutes and seconds as two digits) when `h > 0`, and `m:SS` when
`h = 0`; 75 s gives `1:15`, 3661 s gives `1:01:01` and 0 gives `0:00`. -/
theorem formatMediaTime_spec (d : Int) (h0 : 0 ≤ d) (hlt : d < 4096 * Hour) :
    hms d = (d / Second / 3600, d / Second / 60 % 60, d / Second % 60) ∧
    (0 < d / Second / 3600 →
      formatMediaTime d =
        digits (d / Second / 3600).toNat ++ ":".toList
          ++ twoDigits (d / Second / 60 % 60).toNat ++ ":".toList
          ++ twoDigits (d / Second % 60).toNat) ∧
    (d / Second / 3600 = 0 →
      formatMediaTime d =
        digits (d / Second / 60 % 60).toNat ++ ":".toList
          ++ twoDigits (d / Second % 60).toNat) ∧
    formatMediaTime (75 * Second) = "1:15".toList ∧
    formatMediaTime (3661 * Second) = "1:01:01".toList ∧
    formatMediaTime 0 = "0:00".toList := by
  have hh := hms_of_lt d h0 hlt
  have hm0 : 0 ≤ d / Second / 60 % 60 := Int.emod_nonneg _ (by norm_num)
  have hm1 : d / Second / 60 % 60 < 60 := Int.emod_lt_of_pos _ (by norm_num)
  have hs0 : 0 ≤ d / Second % 60 := Int.emod_nonneg _ (by norm_num)
  have hs1 : d / Second % 60 < 60 := Int.emod_lt_of_pos _ (by norm_num)
  refine ⟨hh, ?_, ?_, ?_, ?_, ?_⟩
  · intro hpos
    unfold formatMediaTime
    rw [hh]
    simp only []
    rw [if_pos hpos, fmtD_of_nonneg _ hpos.le, fmt02D_of_lt _ hm0 hm1,
      fmt02D_of_lt _ hs0 hs1]
  · intro hz
    unfold formatMediaTime
    rw [hh]
    simp only []
    rw [if_neg (by omega), fmtD_of_nonneg _ hm0, fmt02D_of_lt _ hs0 hs1]
  · with_unfolding_all decide
  · with_unfolding_all decide
  · with_unfolding_all decide

/-- C3 (amended), at the duration of 3661.5 seconds. -/
theorem formatMediaTime_spec_witness :
    formatMediaTime 3661500000000 =
      digits ((3661500000000 : Int) / Second / 3600).toNat ++ ":".toList
        ++ twoDigits ((3661500000000 : Int) / Second / 60 % 60).toNat ++ ":".toList
        ++ twoDigits ((3661500000000 : Int) / Second % 60).toNat :=
  (formatMediaTime_spec 3661500000000 (by decide) (by decide)).2.1 (by decide)

theorem neg_tmod_eq (a b : Int) : (-a).tmod b = -(a.tmod b) := by
  rw [Int.tmod_def, Int.tmod_def, Int.neg_tdiv]
  ring

theorem intOfF64_neg (x : ℚ) : intOfF64 (-x) = - intOfF64 x := by
  unfold intOfF64
  rcases lt_trichotomy x 0 with h | h | h
  · rw [if_pos (by linarith), if_neg (by linarith), Int.floor_neg]
  · subst h
    simp
  · rw [if_neg (by linarith), if_pos (by linarith), Int.ceil_neg]

theorem durationHours_neg (d : Int) : durationHours (-d) = - durationHours d := by
  unfold durationHours
  rw [Int.neg_tdiv, neg_tmod_eq]
  push_cast
  rw [f64Round_neg, f64Round_neg, neg_div, f64Round_neg, ← neg_add, f64Round_neg]

theorem durationMinutes_neg (d : Int) : durationMinutes (-d) = - durationMinutes d := by
  unfold durationMinutes
  rw [Int.neg_tdiv, neg_tmod_eq]
  push_cast
  rw [f64Round_neg, f64Round_neg, neg_div, f64Round_neg, ← neg_add, f64Round_neg]

theorem durationSeconds_neg (d : Int) : durationSeconds (-d) = - durationSeconds d := by
  unfold durationSeconds
  rw [Int.neg_tdiv, neg_tmod_eq]
  push_cast
  rw [f64Round_neg, f64Round_neg, neg_div, f64Round_neg, ← neg_add, f64Round_neg]

theorem hms_neg (d : Int) :
    hms (-d) = (-(hms d).1, -(hms d).2.1, -(hms d).2.2) := by
  unfold hms
  simp only [durationHours_neg, durationMinutes_neg, durationSeconds_neg, intOfF64_neg,
    neg_tmod_eq]

theorem durationHours_nonneg (d : Int) (h0 : 0 ≤ d) : 0 ≤ durationHours d := by
  unfold durationHours
  have hq : (0 : ℚ) ≤ ((d.tdiv Hour : Int) : ℚ) := by
    have : 0 ≤ d.tdiv Hour := Int.tdiv_nonneg h0 (by decide)
    exact_mod_cast this
  have hr : (0 : ℚ) ≤ ((d.tmod Hour : Int) : ℚ) := by
    have : 0 ≤ d.tmod Hour := Int.tmod_nonneg _ h0
    exact_mod_cast this
  have h1 := f64Round_ge _ 0 isF64_zero hq
  have h2 := f64Round_ge _ 0 isF64_zero hr
  have h3 := f64Round_ge (f64Round ((d.tmod Hour : Int) : ℚ) / 3600000000000) 0 isF64_zero
    (div_nonneg h2 (by norm_num))
  exact f64Round_ge _ 0 isF64_zero (add_nonneg h1 h3)

/-- The hour field of a negative duration is never positive. -/
theorem hms_fst_nonpos (d : Int) (hneg : d < 0) : (hms d).1 ≤ 0 := by
  have h := hms_neg (-d)
  rw [neg_neg] at h
  rw [h]
  have h0 := durationHours_nonneg (-d) (by omega)
  have : 0 ≤ (hms (-d)).1 := by
    unfold hms intOfF64
    simp only []
    rw [if_pos h0]
    exact Int.floor_nonneg.mpr h0
  simp only []
  omega

/-- C4 (as stated, refuted): the negative duration of -75 seconds is not
clamped to zero: `formatMediaTime` renders it as `-1:-15`. -/
theorem formatMediaTime_neg_not_clamped :
    (-75 * Second < 0) ∧
    hms (-75 * Second) = (0, -1, -15) ∧
    formatMediaTime (-75 * Second) = "-1:-15".toList ∧
    formatMediaTime (-75 * Second) ≠ "0:00".toList := by
  refine ⟨by decide, ?_, ?_, ?_⟩ <;> with_unfolding_all decide

/-- C4 (amended): for every negative duration `d`, `formatMediaTime(d)` returns
a result, and the duration is not clamped to zero: the hour field is never
positive, so the result is the two-field form of the minute and second fields
of `hms(d)`.  For `d` above -4096 hours these fields are those of `|d|`
negated, `-((T / 60) mod 60)` and `-(T mod 60)` with `T` the whole seconds of
`|d|`, and the result is `0:00` exactly when `T` is a multiple of 3600;
-75 s gives `-1:-15`. -/
theorem formatMediaTime_neg (d : Int) (hneg : d < 0) :
    (hms d).1 ≤ 0 ∧
    formatMediaTime d = fmtD (hms d).2.1 ++ ":".toList ++ fmt02D (hms d).2.2 ∧
    (-(4096 * Hour) < d →
      hms d = (-((-d) / Second / 3600), -((-d) / Second / 60 % 60),
        -((-d) / Second % 60)) ∧
      (formatMediaTime d = "0:00".toList ↔ (-d) / Second % 3600 = 0)) ∧
    formatMediaTime (-75 * Second) = "-1:-15".toList := by
  have h1 := hms_fst_nonpos d hneg
  have h2 : formatMediaTime d = fmtD (hms d).2.1 ++ ":".toList ++ fmt02D (hms d).2.2 := by
    unfold formatMediaTime
    rcases hh : hms d with ⟨h, m, s⟩
    rw [hh] at h1
    simp only [] at h1 ⊢
    rw [if_neg (by omega)]
  refine ⟨h1, h2, ?_, by with_unfolding_all decide⟩
  intro hgt
  have hpos := hms_of_lt (-d) (by omega) (by omega)
  have hn := hms_neg (-d)
  rw [neg_neg, hpos] at hn
  simp only [] at hn
  refine ⟨hn, ?_⟩
  rw [h2, hn]
  simp only []
  have e : "0:00".toList = ['0', ':', '0', '0'] := by decide
  have e' : ":".toList = [':'] := by decide
  rw [e, e']
  have hm0 : 0 ≤ (-d) / Second / 60 % 60 := Int.emod_nonneg _ (by norm_num)
  have hs0 : 0 ≤ (-d) / Second % 60 := Int.emod_nonneg _ (by norm_num)
  by_cases hm : (-d) / Second / 60 % 60 = 0
  · by_cases hs : (-d) / Second % 60 = 0
    · rw [hm, hs]
      constructor
      · intro _
        omega
      · intro _
        decide
    · constructor
      · intro hEq
        rw [hm] at hEq
        unfold fmt02D at hEq
        rw [if_pos (by omega)] at hEq
        have hz : fmtD (-0) = ['0'] := by decide
        rw [hz] at hEq
        simp at hEq
      · intro hT
        omega
  · constructor
    · intro hEq
      unfold fmtD at hEq
      rw [if_pos (by omega)] at hEq
      simp at hEq
    · intro hT
      omega

/-- C4 (amended), at the duration of -90.5 seconds: the result is `-1:-30`. -/
theorem formatMediaTime_neg_witness :
    (hms (-90500000000)).1 ≤ 0 ∧
    formatMediaTime (-90500000000)
      = fmtD (hms (-90500000000)).2.1 ++ ":".toList ++ fmt02D (hms (-90500000000)).2.2 ∧
    hms (-90500000000) =
      (-((-(-90500000000 : Int)) / Second / 3600),
       -((-(-90500000000 : Int)) / Second / 60 % 60),
       -((-(-90500000000 : Int)) / Second % 60)) ∧
    (formatMediaTime (-90500000000) = "0:00".toList ↔
      (-(-90500000000 : Int)) / Second % 3600 = 0) :=
  ⟨(formatMediaTime_neg (-90500000000) (by decide)).1,
   (formatMediaTime_neg (-90500000000) (by decide)).2.1,
   ((formatMediaTime_neg (-90500000000) (by decide)).2.2.1 (by decide)).1,
   ((formatMediaTime_neg (-90500000000) (by decide)).2.2.1 (by decide)).2⟩

end I3Status
